import Mathlib

/-!
Verification development for the mcp-knowledge-base repository.

The two subsystems under study are the FAISS index lifecycle manager
(`FaissIndexManager.ts`: `initialize`, `updateIndex`, `similaritySearch`,
over `utils.ts`'s `getFilesRecursively` and `calculateSHA256`) and the URL
ingestion state machine (`UrlManager.ts`: `suggestUrl`, `listPendingUrls`,
`approveUrl`, `rejectUrl`, `addUrl`).

External collaborators (the FAISS vector store, the embedding providers,
the markdown text splitter, SHA-256, HTTP fetch + HTML→markdown
conversion) are modelled as opaque function parameters; everything the
repository's own code does — change detection, hash records, traversal,
error propagation order, the pending-URL list — is translated directly
from the TypeScript source.

Conventions of the embedding:
* File-system paths are lists of path components (`path.join a b` becomes
  list append).
* Asynchronous JavaScript code is sequential here, matching the
  source's `await`-sequenced single-threaded execution.
* A thrown exception becomes an `Except`/`Option` error value; state
  mutated before the throw is kept (JavaScript mutations persist when an
  exception propagates), so fallible operations return both the final
  state and the error.
* Fallible file reads are modelled by per-file failure flags and the
  fallible store save by a `saveOk` oracle indexed by save-attempt count.
-/

/-- A LangChain `Document` as built by `updateIndex`: the chunk text plus
its `{ source: <file path> }` metadata. -/
structure Document where
  pageContent : String
  source : List String
deriving Repr, DecidableEq

/-- A file-system entry inside a knowledge-base directory.  Files carry
their content and two failure flags modelling a fallible
`fsp.readFile`: `hashReadFails` makes the read inside `calculateSHA256`
throw, `contentReadFails` makes the guarded content read in
`updateIndex` throw. -/
inductive Entry where
  | file (name : String) (content : String)
      (hashReadFails : Bool) (contentReadFails : Bool)
  | dir (name : String) (entries : List Entry)
deriving Repr

/-- A content file discovered by the recursive scan: its absolute path
(components, starting with the knowledge-base name) together with the
read behaviour recorded in the tree. -/
structure FoundFile where
  path : List String
  content : String
  hashReadFails : Bool
  contentReadFails : Bool
deriving Repr, DecidableEq

/-- `name.startsWith('.')`: the first character is a dot. -/
def startsWithDot (s : String) : Bool :=
  match s.toList with
  | '.' :: _ => true
  | _ => false

/-- `toLowerCase()` on the ASCII strings handled here. -/
def lowerStr (s : String) : String :=
  String.mk (s.toList.map Char.toLower)

/-- `utils.ts` `getFilesRecursively`'s traversal: depth-first over the
entries, skipping every entry whose name starts with `.` (hidden files
and directories), collecting files in directory-listing order.  A
`readdir` failure is caught and contributes no files; in the model a
missing directory simply yields `[]` at the call site. -/
def collectFiles (p : List String) : List Entry → List FoundFile
  | [] => []
  | Entry.file n c hf cf :: rest =>
      (if startsWithDot n then [] else [⟨p ++ [n], c, hf, cf⟩]) ++
        collectFiles p rest
  | Entry.dir n es :: rest =>
      (if startsWithDot n then [] else collectFiles (p ++ [n]) es) ++
        collectFiles p rest

/-- `path.extname`: the suffix of the basename from its last `.`; empty
when there is no dot or the only dot is the leading character. -/
def extnameList (l : List Char) : List Char :=
  match l.reverse.takeWhile (· ≠ '.') , l.reverse.dropWhile (· ≠ '.') with
  | _, [] => []
  | ext, '.' :: pre =>
      if pre = [] then [] else '.' :: ext.reverse
  | _, _ => []

/-- `path.extname` on a file name. -/
def extname (name : String) : String :=
  String.mk (extnameList name.toList)

/-- The `updateIndex` markdown test:
`path.extname(filePath).toLowerCase() === '.md'` (the extension of the
full path is the extension of its basename). -/
def isMdFile (f : FoundFile) : Bool :=
  lowerStr (extname (f.path.getLastD "")) == ".md"

/-- Chunk production in `updateIndex`: markdown files go through the
`MarkdownTextSplitter` (modelled by the opaque `splitMd`), each chunk
receiving `{ source: filePath }` metadata; every other file yields one
`Document` holding the whole content. -/
def chunkFile (splitMd : String → List String) (f : FoundFile) :
    List Document :=
  if isMdFile f then (splitMd f.content).map (fun t => ⟨t, f.path⟩)
  else [⟨f.content, f.path⟩]

/-- Hash-record store: association list from the mirrored
`<kb>/.index/<relative-path>` path to the stored digest; reads see the
most recent write (`lookupRec` returns the first binding). -/
def lookupRec : List (List String × String) → List String → Option String
  | [], _ => none
  | (k, v) :: rest, p => if k = p then some v else lookupRec rest p

/-- The manager's state, as seen by `initialize` and `updateIndex`:
the knowledge-bases root directory (name → entry tree), the hash
records, the in-memory store handle `faissIndex` (a loaded store is the
list of documents it holds), the persisted `faiss.index` file and the
persisted `model_name.txt` file. -/
structure Sys where
  kbs : List (String × List Entry)
  hashRecords : List (List String × String)
  faissIndex : Option (List Document)
  diskIndex : Option (List Document)
  modelNameFile : Option String
deriving Repr

/-- Instrumentation of one `updateIndex` run: number of embedding calls
(`FaissStore.fromTexts` / `addDocuments`, one `embedDocuments` each),
number of `faissIndex.save` attempts, content reads attempted by the
per-file change-detection scan, and content reads attempted by the
fallback full rebuild. -/
structure Trace where
  embeds : Nat
  saves : Nat
  scanReads : List (List String)
  rebuildReads : List (List String)
deriving Repr, DecidableEq

/-- Result of a (possibly aborted) `updateIndex`: the state after all
mutations performed before any thrown error, the trace, and the error if
one propagated. -/
structure URes where
  sys : Sys
  tr : Trace
  err : Option String
deriving Repr

/-- `readdir` of a knowledge-base directory: `none` models the
`getFilesRecursively` traversal failing at the top (nonexistent
directory), which is caught and yields no files. -/
def lookupKb : List (String × List Entry) → String → Option (List Entry)
  | [], _ => none
  | (n, t) :: rest, q => if n = q then some t else lookupKb rest q

/-- The files `getFilesRecursively(path.join(root, name))` returns for
one knowledge base: empty when the directory does not exist (the
traversal error is swallowed). -/
def kbFiles (kbs : List (String × List Entry)) (name : String) :
    List FoundFile :=
  match lookupKb kbs name with
  | some tree => collectFiles [name] tree
  | none => []

/-- `path.relative(knowledgeBasePath, filePath)` for the paths produced
by the scan, where the base is always a prefix. -/
def relativeTo (base p : List String) : List String := p.drop base.length

/-- The mirrored hash-record path
`path.join(knowledgeBasePath, '.index', dirname(rel), basename(file))`,
which for component lists is the kb path with `.index` interposed. -/
def idxPathOf (kbPath : List String) (f : FoundFile) : List String :=
  kbPath ++ [".index"] ++ relativeTo kbPath f.path

/-- The per-file body of `updateIndex`'s change-detection scan
(`FaissIndexManager.ts`, the loop over `filePaths`), for one discovered
file:

1. `calculateSHA256(filePath)` — reads the file and hashes it with the
   opaque `h`; an unguarded read failure aborts the whole scan
   (the call is not inside any `try` in the loop).
2. Read the stored hash record (absence, modelled by `lookupRec`
   returning `none`, is not an error).
3. If the current hash equals the stored one, skip.
4. Otherwise read the content (guarded: a failure is logged and the
   loop continues), chunk it, and if any chunk was produced: create the
   store from the chunks or add them to the existing store (one
   embedding call either way), save the store (a failed save throws,
   aborting the scan), and only then write the new hash record. -/
def processFile (h : String → String) (splitMd : String → List String)
    (saveOk : Nat → Bool) (kbPath : List String) (f : FoundFile)
    (s : Sys) (tr : Trace) : URes :=
  if f.hashReadFails then
    ⟨s, tr, some "hash read failed"⟩
  else
    let fileHash := h f.content
    let idxPath := idxPathOf kbPath f
    let storedHash := lookupRec s.hashRecords idxPath
    if storedHash = some fileHash then
      ⟨s, tr, none⟩
    else
      let tr := { tr with scanReads := tr.scanReads ++ [f.path] }
      if f.contentReadFails then
        ⟨s, tr, none⟩
      else
        let documentsToAdd := chunkFile splitMd f
        if documentsToAdd = [] then
          ⟨s, tr, none⟩
        else
          let newStore :=
            match s.faissIndex with
            | none => documentsToAdd
            | some old => old ++ documentsToAdd
          let s := { s with faissIndex := some newStore }
          let tr := { tr with embeds := tr.embeds + 1 }
          let saveAttempt := tr.saves
          let tr := { tr with saves := tr.saves + 1 }
          if saveOk saveAttempt then
            ⟨{ s with diskIndex := some newStore,
                      hashRecords := (idxPath, fileHash) :: s.hashRecords },
              tr, none⟩
          else
            ⟨s, tr, some "save failed"⟩

/-- The scan loop over one knowledge base's files; a thrown error stops
the loop and propagates. -/
def processFiles (h : String → String) (splitMd : String → List String)
    (saveOk : Nat → Bool) (kbPath : List String) :
    List FoundFile → Sys → Trace → URes
  | [], s, tr => ⟨s, tr, none⟩
  | f :: rest, s, tr =>
    let r := processFile h splitMd saveOk kbPath f s tr
    match r.err with
    | some _ => r
    | none => processFiles h splitMd saveOk kbPath rest r.sys r.tr

/-- The scan loop over the knowledge-base names, skipping dot-named
entries. -/
def processKbs (h : String → String) (splitMd : String → List String)
    (saveOk : Nat → Bool) :
    List String → Sys → Trace → URes
  | [], s, tr => ⟨s, tr, none⟩
  | name :: rest, s, tr =>
    if startsWithDot name then processKbs h splitMd saveOk rest s tr
    else
      let r := processFiles h splitMd saveOk [name]
        (kbFiles s.kbs name) s tr
      match r.err with
      | some _ => r
      | none => processKbs h splitMd saveOk rest r.sys r.tr

/-- One file's contribution to the fallback full rebuild: the content
read is guarded (a failure is logged and the file skipped), then the
file is chunked. -/
def rebuildDocsOfFile (splitMd : String → List String) (f : FoundFile) :
    List Document :=
  if f.contentReadFails then [] else chunkFile splitMd f

/-- The fallback rebuild's collection pass: re-reads every non-hidden
file of every scanned knowledge base and re-chunks it, also returning
the list of attempted content reads. -/
def gatherAll (splitMd : String → List String)
    (kbs : List (String × List Entry)) :
    List String → List Document × List (List String)
  | [] => ([], [])
  | name :: rest =>
    let (docs, reads) := gatherAll splitMd kbs rest
    if startsWithDot name then (docs, reads)
    else
      let files := kbFiles kbs name
      (files.flatMap (rebuildDocsOfFile splitMd) ++ docs,
        files.map (·.path) ++ reads)

/-- Whether the scan visited at least one file (`anyFileProcessed`):
some non-hidden knowledge base in scope yielded a nonempty file list. -/
def anyFileProcessed (kbs : List (String × List Entry))
    (names : List String) : Bool :=
  names.any (fun n => !startsWithDot n && !(kbFiles kbs n).isEmpty)

/-- The knowledge bases one `updateIndex` call scans: the given name,
or every entry of the root directory listing. -/
def scanNames (specificKnowledgeBase : Option String) (s : Sys) :
    List String :=
  match specificKnowledgeBase with
  | some n => [n]
  | none => s.kbs.map (·.1)

/-- `FaissIndexManager.updateIndex(specificKnowledgeBase?)`: scan the
given knowledge base (or every entry of the root directory), run the
per-file change detection, and if the in-memory store is still null
although files were seen, perform the fallback full rebuild (one store
built from all documents, saved once). -/
def updateIndex (h : String → String) (splitMd : String → List String)
    (saveOk : Nat → Bool) (specificKnowledgeBase : Option String)
    (s : Sys) : URes :=
  let knowledgeBases := scanNames specificKnowledgeBase s
  let r := processKbs h splitMd saveOk knowledgeBases s ⟨0, 0, [], []⟩
  match r.err with
  | some _ => r
  | none =>
    if r.sys.faissIndex = none
        ∧ anyFileProcessed s.kbs knowledgeBases = true then
      let (allDocuments, reads) := gatherAll splitMd s.kbs knowledgeBases
      let tr := { r.tr with rebuildReads := r.tr.rebuildReads ++ reads }
      if allDocuments = [] then
        ⟨r.sys, tr, none⟩
      else
        let s' := { r.sys with faissIndex := some allDocuments }
        let tr := { tr with embeds := tr.embeds + 1 }
        let saveAttempt := tr.saves
        let tr := { tr with saves := tr.saves + 1 }
        if saveOk saveAttempt then
          ⟨{ s' with diskIndex := some allDocuments }, tr, none⟩
        else
          ⟨s', tr, some "save failed"⟩
    else r

/-- The manager's construction-time identity: the configured provider
tag and the model name chosen for it. -/
structure Manager where
  embeddingProvider : String
  modelName : String
deriving Repr, DecidableEq

/-- The configuration the constructor reads (`config.ts` values and the
credential environment variables). -/
structure Env where
  EMBEDDING_PROVIDER : String
  OLLAMA_MODEL : String
  OPENAI_MODEL_NAME : String
  HUGGINGFACE_MODEL_NAME : String
  OPENAI_API_KEY : Option String
  HUGGINGFACE_API_KEY : Option String
deriving Repr

/-- The `FaissIndexManager` constructor: picks the embedding provider
from configuration.  `ollama` needs no credential; `openai` requires
`OPENAI_API_KEY`; any other tag falls to the HuggingFace branch and
requires `HUGGINGFACE_API_KEY`.  The model name is the provider-specific
configured one. -/
def mkFaissIndexManager (env : Env) : Except String Manager :=
  if env.EMBEDDING_PROVIDER = "ollama" then
    .ok ⟨env.EMBEDDING_PROVIDER, env.OLLAMA_MODEL⟩
  else if env.EMBEDDING_PROVIDER = "openai" then
    match env.OPENAI_API_KEY with
    | none => .error
        "OPENAI_API_KEY environment variable is required when using OpenAI provider"
    | some _ => .ok ⟨env.EMBEDDING_PROVIDER, env.OPENAI_MODEL_NAME⟩
  else
    match env.HUGGINGFACE_API_KEY with
    | none => .error
        "HUGGINGFACE_API_KEY environment variable is required when using HuggingFace provider"
    | some _ => .ok ⟨env.EMBEDDING_PROVIDER, env.HUGGINGFACE_MODEL_NAME⟩

/-- `FaissIndexManager.initialize()` on the happy path (no file-system
errors): read `model_name.txt` if present; when it holds a value
different from the live `modelName`, delete `faiss.index` (if present)
and null the in-memory handle; then load `faiss.index` into memory if it
exists (else null the handle); finally persist the live `modelName`.
Note the comparison uses `this.modelName` only — the provider tag is
never consulted or persisted. -/
def initManager (m : Manager) (s : Sys) : Sys :=
  let storedModelName := s.modelNameFile
  let s :=
    match storedModelName with
    | some stored =>
      if stored ≠ m.modelName then
        { s with diskIndex := none, faissIndex := none }
      else s
    | none => s
  let s :=
    match s.diskIndex with
    | some loaded => { s with faissIndex := some loaded }
    | none => { s with faissIndex := none }
  { s with modelNameFile := some m.modelName }

/-- A similarity-search result as returned by
`FaissIndexManager.similaritySearch`: the document spread together with
its score (`{ ...doc, score }`). -/
structure ScoredDoc where
  pageContent : String
  source : List String
  score : Rat
deriving Repr, DecidableEq

/-- The filter object `{ score: { $lte: threshold } }` built by
`similaritySearch` and handed to the store. -/
structure FaissFilter where
  scoreLte : Rat
deriving Repr, DecidableEq

/-- The external FAISS store's `similaritySearchWithScore(query, k,
filter)`: an opaque nearest-neighbour oracle over the store's
documents, returning document/distance pairs. -/
def SearchFn : Type :=
  List Document → String → Nat → FaissFilter → List (Document × Rat)

/-- The interface contract the spec ascribes to the external store's
nearest-neighbour query: at most `k` results, ordered by ascending
distance, each drawn from the store and satisfying the requested
`$lte` score filter. -/
def SearchContract (searchFn : SearchFn) : Prop :=
  ∀ store q k f,
    (searchFn store q k f).length ≤ k
    ∧ List.Sorted (fun a b => a.2 ≤ b.2) (searchFn store q k f)
    ∧ ∀ p ∈ searchFn store q k f, p.2 ≤ f.scoreLte ∧ p.1 ∈ store

/-- `FaissIndexManager.similaritySearch(query, k, threshold = 2)`:
fails when the in-memory handle is null, otherwise builds the
`{ score: { $lte: threshold } }` filter, delegates to the store's
`similaritySearchWithScore`, and maps each `[doc, score]` tuple to
`{ ...doc, score }`. -/
def similaritySearch (searchFn : SearchFn)
    (faissIndex : Option (List Document)) (query : String) (k : Nat)
    (threshold : Rat := 2) : Except String (List ScoredDoc) :=
  match faissIndex with
  | none => .error "FAISS index is not initialized"
  | some store =>
    let filter : FaissFilter := ⟨threshold⟩
    let resultsWithScore := searchFn store query k filter
    .ok (resultsWithScore.map
      (fun p => ⟨p.1.pageContent, p.1.source, p.2⟩))

/-- `UrlManager.ts` URL status. -/
inductive UrlStatus where
  | pending
  | approved
  | rejected
deriving Repr, DecidableEq

/-- One record of the pending-URLs file. -/
structure PendingUrl where
  id : String
  url : String
  knowledge_base : String
  reason : String
  suggested_at : String
  status : UrlStatus
deriving Repr, DecidableEq

/-- The pending-URLs file on disk: missing, unreadable-or-unparsable,
or a well-formed JSON list. -/
inductive PFile where
  | missing
  | corrupt
  | good (urls : List PendingUrl)
deriving Repr, DecidableEq

/-- `loadPendingUrls`: read and `JSON.parse` the file; any failure
(missing file, read error, invalid JSON) is caught and yields `[]`. -/
def loadPendingUrls : PFile → List PendingUrl
  | PFile.missing => []
  | PFile.corrupt => []
  | PFile.good urls => urls

/-- The state the `UrlManager` operations touch: the pending-URLs file,
the markdown files written under the knowledge-bases root
(knowledge base, file name, file content), and the knowledge bases for
which the injected `reindex` callback was invoked. -/
structure IngestSt where
  pendingFile : PFile
  kbWrites : List (String × String × String)
  reindexed : List String
deriving Repr, DecidableEq

/-- `sanitizeUrlForFilename` step 1, `.replace(/https?:\/\/\x2fg, '')`
(every occurrence of `http://` or `https://` removed, leftmost-first,
the optional `s` matched greedily). -/
def stripScheme : List Char → List Char
  | 'h' :: 't' :: 't' :: 'p' :: 's' :: ':' :: '/' :: '/' :: rest =>
      stripScheme rest
  | 'h' :: 't' :: 't' :: 'p' :: ':' :: '/' :: '/' :: rest =>
      stripScheme rest
  | c :: rest => c :: stripScheme rest
  | [] => []

/-- `sanitizeUrlForFilename` step 2, `.replace(/[\x2f:?#]/g, '_')`. -/
def replaceReserved (l : List Char) : List Char :=
  l.map (fun c => if c = '/' ∨ c = ':' ∨ c = '?' ∨ c = '#' then '_' else c)

/-- `sanitizeUrlForFilename` step 3, `.replace(/_\x7b2,\x7d/g, '_')`:
every run of two or more underscores collapses to one — equivalently,
an underscore directly following an underscore is dropped (the flag
records whether the previous kept character closed an underscore
run). -/
def collapseAux : Bool → List Char → List Char
  | _, [] => []
  | prevUnderscore, '_' :: rest =>
      if prevUnderscore then collapseAux true rest
      else '_' :: collapseAux true rest
  | _, c :: rest => c :: collapseAux false rest

/-- `.replace(/_\x7b2,\x7d/g, '_')`. -/
def collapseUnderscores (l : List Char) : List Char :=
  collapseAux false l

/-- `sanitizeUrlForFilename` step 4, `.replace(/^_|_$/g, '')`: one
leading and one trailing underscore removed. -/
def dropLeadUnderscore : List Char → List Char
  | '_' :: rest => rest
  | l => l

/-- `sanitizeUrlForFilename` (`UrlManager.ts`): strip the scheme, map
reserved URL characters to underscores, collapse underscore runs, trim
one underscore at each end, cap at 200 characters. -/
def sanitizeUrlForFilename (url : String) : String :=
  String.mk
    ((((dropLeadUnderscore
        (collapseUnderscores
          (replaceReserved (stripScheme url.toList)))).reverse
      |> dropLeadUnderscore).reverse).take 200)

/-- The markdown file `saveMarkdown` writes: name derived from the URL
plus `.md`, content = front-matter block followed by the converted
body.  `JSON.stringify` of the title and the timestamp are opaque to
the claims; the front matter is assembled as in the source. -/
def saveMarkdownFilename (url : String) : String :=
  sanitizeUrlForFilename url ++ ".md"

/-- The content `saveMarkdown` writes. -/
def saveMarkdownContent (url title fetchedAt markdown : String) : String :=
  "---\nurl: " ++ url ++ "\ntitle: \"" ++ title ++ "\"\nfetched_at: "
    ++ fetchedAt ++ "\n---\n\n" ++ markdown

/-- `UrlManager.suggestUrl(url, kb, reason)`: load the list (corrupt →
empty), append a fresh `pending` record (`newId`, `now` model
`crypto.randomUUID()` and the current timestamp), rewrite the whole
file. -/
def suggestUrl (newId now url knowledgeBase reason : String)
    (st : IngestSt) : IngestSt × PendingUrl :=
  let urls := loadPendingUrls st.pendingFile
  let entry : PendingUrl :=
    ⟨newId, url, knowledgeBase, reason, now, UrlStatus.pending⟩
  ({ st with pendingFile := PFile.good (urls ++ [entry]) }, entry)

/-- `UrlManager.listPendingUrls()`: the records with status `pending`,
in file order. -/
def listPendingUrls (st : IngestSt) : List PendingUrl :=
  (loadPendingUrls st.pendingFile).filter (·.status = UrlStatus.pending)

/-- `urls.find(u => u.id === id)`. -/
def findById (urls : List PendingUrl) (id : String) : Option PendingUrl :=
  urls.find? (fun u => u.id == id)

/-- The mutation `entry.status = 'approved'` on the object returned by
`find`: the first record with the id is updated in place. -/
def approveFirst : List PendingUrl → String → List PendingUrl
  | [], _ => []
  | u :: rest, id =>
    if u.id == id then { u with status := UrlStatus.approved } :: rest
    else u :: approveFirst rest id

/-- `urls.splice(urls.findIndex(u => u.id === id), 1)`: remove the
first record with the id. -/
def removeFirstById : List PendingUrl → String → List PendingUrl
  | [], _ => []
  | u :: rest, id =>
    if u.id == id then rest else u :: removeFirstById rest id

/-- `UrlManager.approveUrl(id)`.  `fetchConvert` models
`fetchAndConvert` (HTTP fetch + Turndown), returning markdown and
title or a propagated error; `mdWriteOk` models the
`fsp.writeFile` of the markdown file; `now` the timestamp.  The
returned state reflects every mutation made before a thrown error:
a missing id or a non-`pending` status throws before anything is
written; a fetch/convert or write failure also leaves both the
pending-list file and the knowledge base untouched; on success the
markdown file is written, then the record's status flips to
`approved` and the list is rewritten, then `reindex` runs for the
record's knowledge base. -/
def approveUrl (fetchConvert : String → Except String (String × String))
    (mdWriteOk : Bool) (now : String) (id : String) (st : IngestSt) :
    IngestSt × Except String (List String × String) :=
  let urls := loadPendingUrls st.pendingFile
  match findById urls id with
  | none => (st, .error ("No pending URL found with id: " ++ id))
  | some entry =>
    if entry.status ≠ UrlStatus.pending then
      (st, .error ("URL " ++ id ++ " has status \""
        ++ (match entry.status with
            | UrlStatus.pending => "pending"
            | UrlStatus.approved => "approved"
            | UrlStatus.rejected => "rejected")
        ++ "\", expected \"pending\""))
    else
      match fetchConvert entry.url with
      | .error e => (st, .error e)
      | .ok (markdown, title) =>
        if ¬ mdWriteOk then (st, .error "markdown write failed")
        else
          let filename := saveMarkdownFilename entry.url
          let filePath := [entry.knowledge_base, filename]
          let st := { st with kbWrites := st.kbWrites ++
            [(entry.knowledge_base, filename,
              saveMarkdownContent entry.url title now markdown)] }
          let st := { st with
            pendingFile := PFile.good (approveFirst urls id) }
          let st := { st with
            reindexed := st.reindexed ++ [entry.knowledge_base] }
          (st, .ok (filePath, entry.knowledge_base))

/-- `UrlManager.rejectUrl(id)`: fails when no record has the id;
otherwise removes the (first) record with that id and rewrites the
file. -/
def rejectUrl (id : String) (st : IngestSt) :
    IngestSt × Except String Unit :=
  let urls := loadPendingUrls st.pendingFile
  match findById urls id with
  | none => (st, .error ("No pending URL found with id: " ++ id))
  | some _ =>
    ({ st with pendingFile := PFile.good (removeFirstById urls id) },
      .ok ())

/-- `UrlManager.addUrl(url, kb)` (the direct-add path): fetch, convert,
write, reindex — no pending record consulted or created. -/
def addUrl (fetchConvert : String → Except String (String × String))
    (mdWriteOk : Bool) (now : String) (url knowledgeBase : String)
    (st : IngestSt) : IngestSt × Except String (List String) :=
  match fetchConvert url with
  | .error e => (st, .error e)
  | .ok (markdown, title) =>
    if ¬ mdWriteOk then (st, .error "markdown write failed")
    else
      let filename := saveMarkdownFilename url
      let st := { st with kbWrites := st.kbWrites ++
        [(knowledgeBase, filename,
          saveMarkdownContent url title now markdown)] }
      let st := { st with reindexed := st.reindexed ++ [knowledgeBase] }
      (st, .ok [knowledgeBase, filename])

/-- Helper: mapping a pair to a `ScoredDoc` keeps the score. -/
theorem pairwise_score_map (l : List (Document × Rat))
    (hs : List.Sorted (fun a b => a.2 ≤ b.2) l) :
    List.Sorted (fun a b : ScoredDoc => a.score ≤ b.score)
      (l.map (fun p => (⟨p.1.pageContent, p.1.source, p.2⟩ : ScoredDoc))) := by
  unfold List.Sorted at hs ⊢
  rw [List.pairwise_map]
  exact hs

/-- **C1.** For every query `q`, every `k`, and every threshold `T`
(default 2 when not supplied), `similaritySearch(q, k, T)` never
returns a match with score `> T`, returns at most `k` matches ordered
by ascending score, and each returned item carries the store's text and
metadata with the numeric distance as its `score` field — given the
external FAISS store's nearest-neighbour query honouring its interface
contract (`SearchContract`). -/
theorem similaritySearch_threshold_filtering
    (searchFn : SearchFn) (hc : SearchContract searchFn)
    (store : List Document) (q : String) (k : Nat) (T : Rat)
    (res : List ScoredDoc)
    (hres : similaritySearch searchFn (some store) q k T = .ok res) :
    (∀ d ∈ res, d.score ≤ T)
    ∧ res.length ≤ k
    ∧ List.Sorted (fun a b : ScoredDoc => a.score ≤ b.score) res
    ∧ (∀ d ∈ res, ∃ doc ∈ store,
        d.pageContent = doc.pageContent ∧ d.source = doc.source)
    ∧ similaritySearch searchFn (some store) q k
        = similaritySearch searchFn (some store) q k 2 := by
  have hres' : res = (searchFn store q k ⟨T⟩).map
      (fun p => (⟨p.1.pageContent, p.1.source, p.2⟩ : ScoredDoc)) := by
    simpa [similaritySearch] using hres.symm
  obtain ⟨hlen, hsorted, hmem⟩ := hc store q k ⟨T⟩
  subst hres'
  refine ⟨?_, ?_, ?_, ?_, rfl⟩
  · intro d hd
    obtain ⟨p, hp, rfl⟩ := List.mem_map.mp hd
    exact (hmem p hp).1
  · simpa using hlen
  · exact pairwise_score_map _ hsorted
  · intro d hd
    obtain ⟨p, hp, rfl⟩ := List.mem_map.mp hd
    exact ⟨p.1, (hmem p hp).2, rfl, rfl⟩

/-- Witness for C1 at a concrete input: the trivial store oracle
(returning no matches) satisfies the contract, and the theorem applies
to the resulting call. -/
theorem similaritySearch_threshold_filtering_witness :
    ([] : List ScoredDoc).length ≤ 5 :=
  (similaritySearch_threshold_filtering (fun _ _ _ _ => [])
    (fun _ _ _ _ => ⟨Nat.zero_le _, List.sorted_nil, by simp⟩)
    [] "q" 5 2 [] rfl).2.1

/-- Ollama configuration whose model name coincides with the OpenAI
configuration below. -/
def envOllamaShared : Env :=
  ⟨"ollama", "shared-model", "other-openai-model", "other-hf-model",
    none, none⟩

/-- OpenAI configuration (credential present) whose model name
coincides with the Ollama configuration above. -/
def envOpenaiShared : Env :=
  ⟨"openai", "other-ollama-model", "shared-model", "other-hf-model",
    some "sk-key", none⟩

/-- A state with a persisted vector store and a persisted model name. -/
def sysSharedModel : Sys :=
  ⟨[], [], none, some [⟨"text", ["kb", "a.md"]⟩], some "shared-model"⟩

/-- **C2, counterexample.**  The persisted identity is the model name
alone: two constructors configured with *different providers* but the
same model name produce managers whose `initialize()` does **not**
invalidate the store.  After a first `initialize()` under the Ollama
manager persists `shared-model`, a second `initialize()` under the
OpenAI manager (a changed live provider, hence a changed configured
identity) finds the persisted name equal, deletes nothing, keeps the
store file and loads it — refuting the claim that a provider change
triggers the rebuild. -/
theorem modelIdentity_ignores_provider :
    mkFaissIndexManager envOllamaShared
      = .ok ⟨"ollama", "shared-model"⟩
    ∧ mkFaissIndexManager envOpenaiShared
      = .ok ⟨"openai", "shared-model"⟩
    ∧ (initManager ⟨"ollama", "shared-model"⟩ sysSharedModel).modelNameFile
      = some "shared-model"
    ∧ (initManager ⟨"openai", "shared-model"⟩
        (initManager ⟨"ollama", "shared-model"⟩ sysSharedModel)).diskIndex
      = some [⟨"text", ["kb", "a.md"]⟩]
    ∧ (initManager ⟨"openai", "shared-model"⟩
        (initManager ⟨"ollama", "shared-model"⟩ sysSharedModel)).faissIndex
      = some [⟨"text", ["kb", "a.md"]⟩] := by
  refine ⟨?_, ?_, ?_, ?_, ?_⟩ <;>
    simp [mkFaissIndexManager, initManager, envOllamaShared,
      envOpenaiShared, sysSharedModel]

/-- **C2, amended.**  The persisted embedding-model identity is the
model name only (the provider tag is never persisted or compared);
whenever the live configured *model name* differs from the persisted
one, `initialize()` deletes the persisted vector-store file (if
present), resets the in-memory handle to null, and persists the live
model name — regardless of whether any knowledge-base file changed
(the knowledge bases and hash records are untouched). -/
theorem initManager_model_drift_rebuild (m : Manager) (s : Sys)
    (stored : String) (hs : s.modelNameFile = some stored)
    (hne : stored ≠ m.modelName) :
    (initManager m s).diskIndex = none
    ∧ (initManager m s).faissIndex = none
    ∧ (initManager m s).modelNameFile = some m.modelName
    ∧ (initManager m s).kbs = s.kbs
    ∧ (initManager m s).hashRecords = s.hashRecords := by
  simp [initManager, hs, hne]

/-- Witness for C2's amended theorem at a concrete input. -/
theorem initManager_model_drift_rebuild_witness :
    (initManager ⟨"ollama", "new-model"⟩ sysSharedModel).diskIndex = none
    ∧ (initManager ⟨"ollama", "new-model"⟩ sysSharedModel).faissIndex
      = none :=
  ⟨(initManager_model_drift_rebuild ⟨"ollama", "new-model"⟩
      sysSharedModel "shared-model" rfl (by decide)).1,
    (initManager_model_drift_rebuild ⟨"ollama", "new-model"⟩
      sysSharedModel "shared-model" rfl (by decide)).2.1⟩

/-- **C3.**  For a changed file whose chunks are added to the store
(readable, with a nonempty chunk set), the per-file step of
`updateIndex` writes the new hash to the file's hash record **only
after** the store save succeeds: when the save attempt fails the step
propagates the error and the hash records are exactly as before (so
the file will be re-processed on the next run); when the save succeeds
the record is updated to the new hash. -/
theorem updateIndex_hash_written_after_save
    (h : String → String) (splitMd : String → List String)
    (saveOk : Nat → Bool) (kbPath : List String) (f : FoundFile)
    (s : Sys) (tr : Trace)
    (hh : f.hashReadFails = false) (hcf : f.contentReadFails = false)
    (hchanged : lookupRec s.hashRecords (idxPathOf kbPath f)
      ≠ some (h f.content))
    (hchunks : chunkFile splitMd f ≠ []) :
    (saveOk tr.saves = false →
      (processFile h splitMd saveOk kbPath f s tr).err = some "save failed"
      ∧ (processFile h splitMd saveOk kbPath f s tr).sys.hashRecords
        = s.hashRecords)
    ∧ (saveOk tr.saves = true →
      (processFile h splitMd saveOk kbPath f s tr).err = none
      ∧ (processFile h splitMd saveOk kbPath f s tr).sys.hashRecords
        = (idxPathOf kbPath f, h f.content) :: s.hashRecords
      ∧ lookupRec
          (processFile h splitMd saveOk kbPath f s tr).sys.hashRecords
          (idxPathOf kbPath f)
        = some (h f.content)) := by
  constructor
  · intro hsave
    simp [processFile, hh, hcf, hchanged, hchunks, hsave]
  · intro hsave
    simp [processFile, hh, hcf, hchanged, hchunks, hsave, lookupRec]

/-- Witness for C3 at concrete inputs, exercising both the failed-save
and the successful-save branch. -/
theorem updateIndex_hash_written_after_save_witness :
    ((processFile (fun c => c) (fun c => [c]) (fun _ => false) ["kb1"]
        ⟨["kb1", "a.txt"], "body", false, false⟩
        ⟨[], [], none, none, none⟩ ⟨0, 0, [], []⟩).err = some "save failed"
      ∧ (processFile (fun c => c) (fun c => [c]) (fun _ => false) ["kb1"]
        ⟨["kb1", "a.txt"], "body", false, false⟩
        ⟨[], [], none, none, none⟩ ⟨0, 0, [], []⟩).sys.hashRecords = [])
    ∧ (processFile (fun c => c) (fun c => [c]) (fun _ => true) ["kb1"]
        ⟨["kb1", "a.txt"], "body", false, false⟩
        ⟨[], [], none, none, none⟩ ⟨0, 0, [], []⟩).sys.hashRecords
      = [(["kb1", ".index", "a.txt"], "body")] :=
  ⟨(updateIndex_hash_written_after_save (fun c => c) (fun c => [c])
      (fun _ => false) ["kb1"] ⟨["kb1", "a.txt"], "body", false, false⟩
      ⟨[], [], none, none, none⟩ ⟨0, 0, [], []⟩ rfl rfl
      (by simp [lookupRec]) (by simp [chunkFile, isMdFile])).1 rfl,
    ((updateIndex_hash_written_after_save (fun c => c) (fun c => [c])
      (fun _ => true) ["kb1"] ⟨["kb1", "a.txt"], "body", false, false⟩
      ⟨[], [], none, none, none⟩ ⟨0, 0, [], []⟩ rfl rfl
      (by simp [lookupRec]) (by simp [chunkFile, isMdFile])).2 rfl).2.1⟩

/-- A knowledge base holding one file that is unreadable (its
`calculateSHA256` read throws) followed by one readable changed file. -/
def sysBadFile : Sys :=
  ⟨[("kb1", [Entry.file "bad.txt" "x" true false,
             Entry.file "good.txt" "y" false false])],
    [], none, none, none⟩

/-- **C6, counterexample.**  A single unreadable file aborts the whole
scan: `calculateSHA256(filePath)` is called outside any `try` in the
per-file loop, so its read failure propagates out of `updateIndex` —
the error is not swallowed, and the later `good.txt` is never
processed (no hash record is written, no store is created). -/
theorem scan_aborted_by_unreadable_file :
    (updateIndex (fun c => c) (fun c => [c]) (fun _ => true)
        (some "kb1") sysBadFile).err = some "hash read failed"
    ∧ (updateIndex (fun c => c) (fun c => [c]) (fun _ => true)
        (some "kb1") sysBadFile).sys.hashRecords = []
    ∧ (updateIndex (fun c => c) (fun c => [c]) (fun _ => true)
        (some "kb1") sysBadFile).sys.faissIndex = none := by
  refine ⟨?_, ?_, ?_⟩ <;>
    simp [updateIndex, processKbs, processFiles, processFile, kbFiles,
      lookupKb, collectFiles, startsWithDot, sysBadFile]

/-- **C6, amended.**  During an `updateIndex` scan, if the *guarded*
content read of a changed file (the `fsp.readFile` inside the
`try`/`catch` of the loop) fails, the failure is logged and the scan
continues with the next file; but a read failure inside
`calculateSHA256` — the first read of each file, outside any `try` —
aborts the whole scan. -/
theorem scan_continues_after_guarded_read_failure
    (h : String → String) (splitMd : String → List String)
    (saveOk : Nat → Bool) (kbPath : List String) (f : FoundFile)
    (rest : List FoundFile) (s : Sys) (tr : Trace)
    (hh : f.hashReadFails = false) (hcf : f.contentReadFails = true)
    (hchanged : lookupRec s.hashRecords (idxPathOf kbPath f)
      ≠ some (h f.content)) :
    processFiles h splitMd saveOk kbPath (f :: rest) s tr
      = processFiles h splitMd saveOk kbPath rest s
          { tr with scanReads := tr.scanReads ++ [f.path] }
    ∧ ∀ f' : FoundFile, f'.hashReadFails = true →
        processFiles h splitMd saveOk kbPath (f' :: rest) s tr
          = ⟨s, tr, some "hash read failed"⟩ := by
  constructor
  · simp [processFiles, processFile, hh, hcf, hchanged]
  · intro f' hf'
    simp [processFiles, processFile, hf']

/-- Witness for C6's amended theorem at a concrete input. -/
theorem scan_continues_after_guarded_read_failure_witness :
    processFiles (fun c => c) (fun c => [c]) (fun _ => true) ["kb1"]
        [⟨["kb1", "u.txt"], "z", false, true⟩]
        ⟨[], [], none, none, none⟩ ⟨0, 0, [], []⟩
      = processFiles (fun c => c) (fun c => [c]) (fun _ => true) ["kb1"]
          [] ⟨[], [], none, none, none⟩ ⟨0, 0, [["kb1", "u.txt"]], []⟩ :=
  (scan_continues_after_guarded_read_failure (fun c => c) (fun c => [c])
    (fun _ => true) ["kb1"] ⟨["kb1", "u.txt"], "z", false, true⟩ []
    ⟨[], [], none, none, none⟩ ⟨0, 0, [], []⟩ rfl rfl
    (by simp [lookupRec])).1

/-- **C9.**  `updateIndex(name)` with a dot-prefixed name or a name
with no corresponding directory under the knowledge-bases root returns
without error and leaves the whole state — in-memory store, persisted
store file, every hash record — unchanged, with no reads, embedding
calls or saves (the directory-traversal failure is swallowed into an
empty file list). -/
theorem updateIndex_unknown_kb_noop
    (h : String → String) (splitMd : String → List String)
    (saveOk : Nat → Bool) (name : String) (s : Sys)
    (hname : startsWithDot name = true ∨ lookupKb s.kbs name = none) :
    updateIndex h splitMd saveOk (some name) s
      = ⟨s, ⟨0, 0, [], []⟩, none⟩ := by
  rcases hname with hdot | hmiss
  · simp [updateIndex, scanNames, processKbs, anyFileProcessed, hdot]
  · by_cases hdot : startsWithDot name
    · simp [updateIndex, scanNames, processKbs, anyFileProcessed, hdot]
    · simp [updateIndex, scanNames, processKbs, processFiles,
        anyFileProcessed, kbFiles, hmiss, hdot]

/-- Witness for C9 at a concrete input: a dot-named knowledge base and
a missing knowledge base. -/
theorem updateIndex_unknown_kb_noop_witness :
    updateIndex (fun c => c) (fun c => [c]) (fun _ => true)
        (some ".git") sysSharedModel
      = ⟨sysSharedModel, ⟨0, 0, [], []⟩, none⟩
    ∧ updateIndex (fun c => c) (fun c => [c]) (fun _ => true)
        (some "absent") sysSharedModel
      = ⟨sysSharedModel, ⟨0, 0, [], []⟩, none⟩ :=
  ⟨updateIndex_unknown_kb_noop (fun c => c) (fun c => [c]) (fun _ => true)
      ".git" sysSharedModel (Or.inl rfl),
    updateIndex_unknown_kb_noop (fun c => c) (fun c => [c]) (fun _ => true)
      "absent" sysSharedModel (Or.inr rfl)⟩

/-- Helper: `find` misses an id exactly when no record carries it. -/
theorem findById_eq_none_iff (urls : List PendingUrl) (id : String) :
    findById urls id = none ↔ ∀ u ∈ urls, u.id ≠ id := by
  simp [findById, List.find?_eq_none]

/-- Helper: with pairwise-distinct ids, removing the record with an id
leaves no record carrying that id. -/
theorem removeFirstById_no_id (urls : List PendingUrl) (id : String)
    (hnd : (urls.map (·.id)).Nodup) :
    ∀ u ∈ removeFirstById urls id, u.id ≠ id := by
  induction urls with
  | nil => simp [removeFirstById]
  | cons u rest ih =>
    rw [List.map_cons, List.nodup_cons] at hnd
    obtain ⟨hu, hrest⟩ := hnd
    by_cases hid : u.id == id
    · rw [removeFirstById, if_pos hid]
      intro v hv hvid
      exact hu (by
        rw [eq_of_beq hid]
        rw [← hvid]
        exact List.mem_map_of_mem _ hv)
    · rw [removeFirstById, if_neg hid]
      intro v hv
      rcases List.mem_cons.mp hv with rfl | hv'
      · exact fun hc => hid (by simp [hc])
      · exact ih hrest v hv'

/-- **C7.**  `reject(id)` fails when no record with that id exists;
otherwise it removes the record from the persisted list entirely, so
(with the records' ids pairwise distinct, as `crypto.randomUUID`
guarantees) a subsequent `listPending()` or lookup by that id finds
nothing. -/
theorem rejectUrl_removes_record (id : String) (st : IngestSt) :
    (findById (loadPendingUrls st.pendingFile) id = none →
      rejectUrl id st
        = (st, .error ("No pending URL found with id: " ++ id)))
    ∧ (∀ u, findById (loadPendingUrls st.pendingFile) id = some u →
      (rejectUrl id st).2 = .ok ()
      ∧ (rejectUrl id st).1.pendingFile
        = PFile.good
            (removeFirstById (loadPendingUrls st.pendingFile) id)
      ∧ (((loadPendingUrls st.pendingFile).map (·.id)).Nodup →
        findById (loadPendingUrls (rejectUrl id st).1.pendingFile) id
          = none
        ∧ ∀ v ∈ listPendingUrls (rejectUrl id st).1, v.id ≠ id)) := by
  constructor
  · intro hf
    simp [rejectUrl, hf]
  · intro u hf
    refine ⟨by simp [rejectUrl, hf], by simp [rejectUrl, hf], ?_⟩
    intro hnd
    have hrem := removeFirstById_no_id (loadPendingUrls st.pendingFile)
      id hnd
    have hpf : (rejectUrl id st).1.pendingFile
        = PFile.good
            (removeFirstById (loadPendingUrls st.pendingFile) id) := by
      simp [rejectUrl, hf]
    constructor
    · rw [findById_eq_none_iff, hpf]
      intro v hv
      exact hrem v (by simpa [loadPendingUrls] using hv)
    · intro v hv
      unfold listPendingUrls at hv
      rw [hpf] at hv
      simp only [loadPendingUrls] at hv
      exact hrem v (List.mem_of_mem_filter hv)

/-- Witness for C7 at a concrete input. -/
theorem rejectUrl_removes_record_witness :
    (rejectUrl "id1"
        ⟨PFile.good [⟨"id1", "https://a", "kb", "r", "t",
          UrlStatus.pending⟩], [], []⟩).2 = .ok () :=
  ((rejectUrl_removes_record "id1"
    ⟨PFile.good [⟨"id1", "https://a", "kb", "r", "t",
      UrlStatus.pending⟩], [], []⟩).2
    ⟨"id1", "https://a", "kb", "r", "t", UrlStatus.pending⟩ rfl).1

/-- **C4.**  `approve(id)` fails when no record with that id exists or
when the record's status is not `pending`; in those cases, and on any
failure of the fetch/HTML-to-markdown conversion or of the markdown
file write, the pending-list file (and the rest of the state) is left
exactly as it was; the record's status is flipped to `approved` — by
rewriting the list with this one record updated — only on the success
path, i.e. only after the markdown write succeeded. -/
theorem approveUrl_all_or_nothing
    (fc : String → Except String (String × String)) (mdWriteOk : Bool)
    (now id : String) (st : IngestSt) :
    (∀ e, (approveUrl fc mdWriteOk now id st).2 = .error e →
      (approveUrl fc mdWriteOk now id st).1 = st)
    ∧ (findById (loadPendingUrls st.pendingFile) id = none →
      (approveUrl fc mdWriteOk now id st).2
        = .error ("No pending URL found with id: " ++ id))
    ∧ (∀ u, findById (loadPendingUrls st.pendingFile) id = some u →
      u.status ≠ UrlStatus.pending →
      ∃ e, (approveUrl fc mdWriteOk now id st).2 = .error e)
    ∧ (∀ out, (approveUrl fc mdWriteOk now id st).2 = .ok out →
      mdWriteOk = true
      ∧ (∃ u, findById (loadPendingUrls st.pendingFile) id = some u
          ∧ u.status = UrlStatus.pending)
      ∧ (approveUrl fc mdWriteOk now id st).1.pendingFile
        = PFile.good (approveFirst (loadPendingUrls st.pendingFile) id)) := by
  cases hf : findById (loadPendingUrls st.pendingFile) id with
  | none =>
    have hr : approveUrl fc mdWriteOk now id st
        = (st, .error ("No pending URL found with id: " ++ id)) := by
      simp [approveUrl, hf]
    refine ⟨fun e _ => by rw [hr], fun _ => by rw [hr], ?_, ?_⟩
    · intro v hv
      exact absurd hv (by simp)
    · intro out hout
      rw [hr] at hout
      exact absurd hout (by simp)
  | some u =>
    by_cases hs : u.status = UrlStatus.pending
    · cases hfc : fc u.url with
      | error e =>
        have hr : approveUrl fc mdWriteOk now id st = (st, .error e) := by
          simp [approveUrl, hf, hs, hfc]
        refine ⟨fun e' _ => by rw [hr], ?_, ?_, ?_⟩
        · intro hnone
          exact absurd hnone (by simp)
        · intro v hv hvs
          exact absurd (Option.some.inj hv ▸ hs) hvs
        · intro out hout
          rw [hr] at hout
          exact absurd hout (by simp)
      | ok mt =>
        obtain ⟨markdown, title⟩ := mt
        cases hw : mdWriteOk with
        | false =>
          have hr : approveUrl fc false now id st
              = (st, .error "markdown write failed") := by
            simp [approveUrl, hf, hs, hfc]
          refine ⟨fun e' _ => by rw [hr], ?_, ?_, ?_⟩
          · intro hnone
            exact absurd hnone (by simp)
          · intro v hv hvs
            exact absurd (Option.some.inj hv ▸ hs) hvs
          · intro out hout
            rw [hr] at hout
            exact absurd hout (by simp)
        | true =>
          have hr : approveUrl fc true now id st
              = ({ pendingFile :=
                    PFile.good
                      (approveFirst (loadPendingUrls st.pendingFile) id),
                   kbWrites := st.kbWrites
                     ++ [(u.knowledge_base, saveMarkdownFilename u.url,
                          saveMarkdownContent u.url title now markdown)],
                   reindexed := st.reindexed ++ [u.knowledge_base] },
                 .ok ([u.knowledge_base, saveMarkdownFilename u.url],
                   u.knowledge_base)) := by
            simp [approveUrl, hf, hs, hfc]
          refine ⟨?_, ?_, ?_, ?_⟩
          · intro e' he'
            rw [hr] at he'
            exact absurd he' (by simp)
          · intro hnone
            exact absurd hnone (by simp)
          · intro v hv hvs
            exact absurd (Option.some.inj hv ▸ hs) hvs
          · intro out _
            exact ⟨rfl, ⟨u, rfl, hs⟩, by rw [hr]⟩
    · have hr : approveUrl fc mdWriteOk now id st
          = (st, .error ("URL " ++ id ++ " has status \""
            ++ (match u.status with
                | UrlStatus.pending => "pending"
                | UrlStatus.approved => "approved"
                | UrlStatus.rejected => "rejected")
            ++ "\", expected \"pending\"")) := by
        simp [approveUrl, hf, hs]
      refine ⟨fun e _ => by rw [hr], ?_, ?_, ?_⟩
      · intro hnone
        exact absurd hnone (by simp)
      · intro v hv _
        exact ⟨_, by rw [hr]⟩
      · intro out hout
        rw [hr] at hout
        exact absurd hout (by simp)

/-- Witness for C4 at a concrete failing input (no record with the
id): the call errors and the state is untouched. -/
theorem approveUrl_all_or_nothing_witness :
    (approveUrl (fun _ => .error "net") true "t" "missing-id"
        ⟨PFile.missing, [], []⟩).2
      = .error ("No pending URL found with id: " ++ "missing-id") :=
  (approveUrl_all_or_nothing (fun _ => .error "net") true "t"
    "missing-id" ⟨PFile.missing, [], []⟩).2.1 rfl

/-- **C8.**  A missing, unreadable or syntactically invalid
pending-URLs file is treated as an empty list by every `UrlManager`
operation (the `loadPendingUrls` `catch` swallows all failures): on a
corrupt file, `listPending` is empty, `approve`/`reject` fail with the
not-found error, and `suggest` succeeds, rewriting the file to hold
only the newly suggested record — silently discarding whatever the
corrupt file held. -/
theorem urlManager_corrupt_file_treated_as_empty :
    loadPendingUrls PFile.missing = []
    ∧ loadPendingUrls PFile.corrupt = []
    ∧ (∀ (st : IngestSt) (newId now url kb reason : String),
        st.pendingFile = PFile.corrupt →
        suggestUrl newId now url kb reason st
          = ({ st with pendingFile := (PFile.good
                [⟨newId, url, kb, reason, now, UrlStatus.pending⟩]) },
             ⟨newId, url, kb, reason, now, UrlStatus.pending⟩))
    ∧ (∀ st : IngestSt, st.pendingFile = PFile.corrupt →
        listPendingUrls st = [])
    ∧ (∀ (st : IngestSt) (id : String), st.pendingFile = PFile.corrupt →
        (rejectUrl id st).2
          = .error ("No pending URL found with id: " ++ id)
        ∧ (rejectUrl id st).1 = st)
    ∧ (∀ (st : IngestSt)
        (fc : String → Except String (String × String))
        (mdOk : Bool) (now id : String),
        st.pendingFile = PFile.corrupt →
        (approveUrl fc mdOk now id st).2
          = .error ("No pending URL found with id: " ++ id)) := by
  refine ⟨rfl, rfl, ?_, ?_, ?_, ?_⟩
  · intro st newId now url kb reason hcor
    simp [suggestUrl, hcor, loadPendingUrls]
  · intro st hcor
    simp [listPendingUrls, hcor, loadPendingUrls]
  · intro st id hcor
    constructor <;> simp [rejectUrl, hcor, loadPendingUrls, findById]
  · intro st fc mdOk now id hcor
    simp [approveUrl, hcor, loadPendingUrls, findById]

/-- Witness for C8 at a concrete corrupt-file state. -/
theorem urlManager_corrupt_file_treated_as_empty_witness :
    suggestUrl "id9" "t9" "https://x/doc" "kb9" "useful"
        ⟨PFile.corrupt, [], []⟩
      = (⟨PFile.good [⟨"id9", "https://x/doc", "kb9", "useful", "t9",
            UrlStatus.pending⟩], [], []⟩,
         ⟨"id9", "https://x/doc", "kb9", "useful", "t9",
            UrlStatus.pending⟩) :=
  urlManager_corrupt_file_treated_as_empty.2.2.1
    ⟨PFile.corrupt, [], []⟩ "id9" "t9" "https://x/doc" "kb9" "useful" rfl

/-- The pending record for the degenerate URL `https://`. -/
def pendingBareScheme : PendingUrl :=
  ⟨"id0", "https://", "kb1", "r", "t", UrlStatus.pending⟩

/-- An ingestion state holding only that pending record. -/
def stBareScheme : IngestSt := ⟨PFile.good [pendingBareScheme], [], []⟩

/-- A fetch/convert oracle that succeeds. -/
def fcOk : String → Except String (String × String) :=
  fun _ => .ok ("body", "Title")

/-- **C10.**  For the URL `https://`, sanitization yields the empty
string, so `approve` (and `addDirect`) write a file literally named
`.md` under the target knowledge base; that name starts with a dot, so
the recursive file scan never returns it — the ingested document
succeeds but can never be indexed. -/
theorem empty_sanitized_filename_never_indexed :
    sanitizeUrlForFilename "https://" = ""
    ∧ saveMarkdownFilename "https://" = ".md"
    ∧ (approveUrl fcOk true "t0" "id0" stBareScheme).2
      = .ok (["kb1", ".md"], "kb1")
    ∧ (approveUrl fcOk true "t0" "id0" stBareScheme).1.kbWrites
      = [("kb1", ".md",
          saveMarkdownContent "https://" "Title" "t0" "body")]
    ∧ (addUrl fcOk true "t0" "https://" "kb1"
        ⟨PFile.missing, [], []⟩).2 = .ok ["kb1", ".md"]
    ∧ startsWithDot ".md" = true
    ∧ collectFiles ["kb1"]
        [Entry.file ".md"
          (saveMarkdownContent "https://" "Title" "t0" "body")
          false false]
      = [] := by
  have hfn : saveMarkdownFilename "https://" = ".md" := rfl
  refine ⟨rfl, rfl, ?_, ?_, ?_, rfl, ?_⟩
  · simp [approveUrl, stBareScheme, loadPendingUrls, findById,
      pendingBareScheme, fcOk, hfn]
  · simp [approveUrl, stBareScheme, loadPendingUrls, findById,
      pendingBareScheme, fcOk, hfn]
  · simp [addUrl, fcOk, hfn]
  · simp [collectFiles, startsWithDot]

/-- Every file the traversal returns has the scanned directory as a
proper prefix of its path. -/
theorem collectFiles_path_shape (p : List String) (es : List Entry) :
    ∀ f ∈ collectFiles p es, ∃ q, f.path = p ++ q ∧ q ≠ [] := by
  induction p, es using collectFiles.induct with
  | case1 p => simp [collectFiles]
  | case2 p n c hf cf rest ih =>
    intro f hf'
    rw [collectFiles] at hf'
    rcases List.mem_append.mp hf' with hmem | hmem
    · by_cases hdot : startsWithDot n
      · simp [hdot] at hmem
      · simp [hdot] at hmem
        exact ⟨[n], by simp [hmem], by simp⟩
    · exact ih f hmem
  | case3 p n es rest ih1 ih2 =>
    intro f hf'
    rw [collectFiles] at hf'
    rcases List.mem_append.mp hf' with hmem | hmem
    · by_cases hdot : startsWithDot n
      · simp [hdot] at hmem
      · rw [if_neg hdot] at hmem
        obtain ⟨q, hq, _⟩ := ih1 f hmem
        exact ⟨n :: q, by simp [hq], by simp⟩
    · exact ih2 f hmem

/-- A file needs no work in a scan over the records `recs`: its hash
read succeeds and it is either unchanged (its record matches its
current hash), or its guarded content read fails, or it produces no
chunks — the three cases in which the per-file step leaves the state
untouched and continues. -/
def Settled (h : String → String) (splitMd : String → List String)
    (recs : List (List String × String)) (n : String)
    (f : FoundFile) : Prop :=
  f.hashReadFails = false
  ∧ (lookupRec recs (idxPathOf [n] f) = some (h f.content)
     ∨ f.contentReadFails = true
     ∨ chunkFile splitMd f = [])

/-- The content-read attempts a scan makes over a list of settled
files: exactly the files whose record does not match. -/
def unmatchedPaths (h : String → String)
    (recs : List (List String × String)) (n : String) :
    List FoundFile → List (List String)
  | [] => []
  | f :: rest =>
    (if lookupRec recs (idxPathOf [n] f) = some (h f.content) then []
     else [f.path]) ++ unmatchedPaths h recs n rest

/-- The content-read attempts a scan makes over settled knowledge
bases. -/
def unmatchedOfKbs (h : String → String)
    (recs : List (List String × String))
    (kbs : List (String × List Entry)) : List String → List (List String)
  | [] => []
  | nm :: rest =>
    (if startsWithDot nm then []
     else unmatchedPaths h recs nm (kbFiles kbs nm))
      ++ unmatchedOfKbs h recs kbs rest

/-- The hash-record paths a scan may write, per knowledge base. -/
def idxPathsOfKbs (kbs : List (String × List Entry)) :
    List String → List (List String)
  | [] => []
  | nm :: rest =>
    (if startsWithDot nm then []
     else (kbFiles kbs nm).map (fun f => idxPathOf [nm] f))
      ++ idxPathsOfKbs kbs rest

/-- A settled file's step is a no-op: no state change, no error, no
embedding call, no save; the only effect is the content-read attempt
when the record does not match. -/
theorem processFile_settled (h : String → String)
    (splitMd : String → List String) (saveOk : Nat → Bool) (n : String)
    (f : FoundFile) (s : Sys) (tr : Trace)
    (hst : Settled h splitMd s.hashRecords n f) :
    processFile h splitMd saveOk [n] f s tr
      = ⟨s, { tr with scanReads := tr.scanReads ++
          (if lookupRec s.hashRecords (idxPathOf [n] f)
              = some (h f.content)
           then [] else [f.path]) }, none⟩ := by
  obtain ⟨hh, hcase⟩ := hst
  by_cases hm : lookupRec s.hashRecords (idxPathOf [n] f)
      = some (h f.content)
  · simp [processFile, hh, hm]
  · rcases hcase with hm' | hcf | hempty
    · exact absurd hm' hm
    · simp [processFile, hh, hm, hcf]
    · by_cases hcf : f.contentReadFails
      · simp [processFile, hh, hm, hcf]
      · simp [processFile, hh, hm, hcf, hempty]

/-- After an error-free per-file step the file is settled with respect
to the updated records; records at other paths are untouched; the
in-memory store is never nulled; the directory tree and model file are
untouched. -/
theorem processFile_err_none (h : String → String)
    (splitMd : String → List String) (saveOk : Nat → Bool) (n : String)
    (f : FoundFile) (s : Sys) (tr : Trace)
    (he : (processFile h splitMd saveOk [n] f s tr).err = none) :
    Settled h splitMd
        (processFile h splitMd saveOk [n] f s tr).sys.hashRecords n f
    ∧ (∀ p, p ≠ idxPathOf [n] f →
        lookupRec (processFile h splitMd saveOk [n] f s tr).sys.hashRecords p
          = lookupRec s.hashRecords p)
    ∧ ((processFile h splitMd saveOk [n] f s tr).sys.faissIndex = none →
        s.faissIndex = none)
    ∧ (processFile h splitMd saveOk [n] f s tr).sys.kbs = s.kbs
    ∧ (processFile h splitMd saveOk [n] f s tr).sys.modelNameFile
        = s.modelNameFile := by
  by_cases hh : f.hashReadFails
  · simp [processFile, hh] at he
  · by_cases hm : lookupRec s.hashRecords (idxPathOf [n] f)
        = some (h f.content)
    · have hr : processFile h splitMd saveOk [n] f s tr
          = ⟨s, tr, none⟩ := by
        simp [processFile, hh, hm]
      rw [hr]
      exact ⟨⟨by simp [hh], Or.inl hm⟩, fun p _ => rfl, fun hn => hn,
        rfl, rfl⟩
    · by_cases hcf : f.contentReadFails
      · have hr : processFile h splitMd saveOk [n] f s tr
            = ⟨s, { tr with scanReads := tr.scanReads ++ [f.path] },
                none⟩ := by
          simp [processFile, hh, hm, hcf]
        rw [hr]
        exact ⟨⟨by simp [hh], Or.inr (Or.inl hcf)⟩, fun p _ => rfl,
          fun hn => hn, rfl, rfl⟩
      · by_cases hempty : chunkFile splitMd f = []
        · have hr : processFile h splitMd saveOk [n] f s tr
              = ⟨s, { tr with scanReads := tr.scanReads ++ [f.path] },
                  none⟩ := by
            simp [processFile, hh, hm, hcf, hempty]
          rw [hr]
          exact ⟨⟨by simp [hh], Or.inr (Or.inr hempty)⟩, fun p _ => rfl,
            fun hn => hn, rfl, rfl⟩
        · by_cases hsave : saveOk tr.saves
          · have hr : processFile h splitMd saveOk [n] f s tr
                = ⟨⟨s.kbs,
                    (idxPathOf [n] f, h f.content) :: s.hashRecords,
                    some (s.faissIndex.getD [] ++ chunkFile splitMd f),
                    some (s.faissIndex.getD [] ++ chunkFile splitMd f),
                    s.modelNameFile⟩,
                   { tr with
                     scanReads := tr.scanReads ++ [f.path]
                     embeds := tr.embeds + 1
                     saves := tr.saves + 1 },
                   none⟩ := by
              cases hfi : s.faissIndex with
              | none => simp [processFile, hh, hm, hcf, hempty, hsave, hfi]
              | some old => simp [processFile, hh, hm, hcf, hempty, hsave, hfi]
            rw [hr]
            refine ⟨⟨by simp [hh], Or.inl (by simp [lookupRec])⟩,
              ?_, ?_, rfl, rfl⟩
            · intro p hp
              simp only [lookupRec]
              rw [if_neg (fun hc => hp hc.symm)]
            · intro hn
              simp at hn
          · simp [processFile, hh, hm, hcf, hempty, hsave] at he

/-- Unfolding equation for the file loop: the step either propagates
its error or the loop continues on the step's state. -/
theorem processFiles_cons (h : String → String)
    (splitMd : String → List String) (saveOk : Nat → Bool)
    (kbPath : List String) (f : FoundFile) (rest : List FoundFile)
    (s : Sys) (tr : Trace) :
    processFiles h splitMd saveOk kbPath (f :: rest) s tr
      = if (processFile h splitMd saveOk kbPath f s tr).err = none
        then processFiles h splitMd saveOk kbPath rest
          (processFile h splitMd saveOk kbPath f s tr).sys
          (processFile h splitMd saveOk kbPath f s tr).tr
        else processFile h splitMd saveOk kbPath f s tr := by
  generalize hr : processFile h splitMd saveOk kbPath f s tr = r
  obtain ⟨s1, tr1, e1⟩ := r
  cases e1 <;> simp [processFiles, hr]

/-- Unfolding equation for the knowledge-base loop on a dot name. -/
theorem processKbs_cons_dot (h : String → String)
    (splitMd : String → List String) (saveOk : Nat → Bool) (nm : String)
    (rest : List String) (s : Sys) (tr : Trace)
    (hdot : startsWithDot nm = true) :
    processKbs h splitMd saveOk (nm :: rest) s tr
      = processKbs h splitMd saveOk rest s tr := by
  simp [processKbs, hdot]

/-- Unfolding equation for the knowledge-base loop on a non-dot name. -/
theorem processKbs_cons (h : String → String)
    (splitMd : String → List String) (saveOk : Nat → Bool) (nm : String)
    (rest : List String) (s : Sys) (tr : Trace)
    (hdot : startsWithDot nm = false) :
    processKbs h splitMd saveOk (nm :: rest) s tr
      = if (processFiles h splitMd saveOk [nm]
            (kbFiles s.kbs nm) s tr).err = none
        then processKbs h splitMd saveOk rest
          (processFiles h splitMd saveOk [nm] (kbFiles s.kbs nm) s tr).sys
          (processFiles h splitMd saveOk [nm] (kbFiles s.kbs nm) s tr).tr
        else processFiles h splitMd saveOk [nm] (kbFiles s.kbs nm) s tr := by
  generalize hr : processFiles h splitMd saveOk [nm]
    (kbFiles s.kbs nm) s tr = r
  obtain ⟨s1, tr1, e1⟩ := r
  cases e1 <;> simp [processKbs, hdot, hr]

/-- Scanning a list of settled files is a no-op: same state, no error,
no embedding call, no save; only the unmatched files' content reads
are attempted. -/
theorem processFiles_settled (h : String → String)
    (splitMd : String → List String) (saveOk : Nat → Bool) (n : String)
    (files : List FoundFile) (s : Sys) (tr : Trace)
    (hall : ∀ f ∈ files, Settled h splitMd s.hashRecords n f) :
    processFiles h splitMd saveOk [n] files s tr
      = ⟨s, { tr with scanReads := tr.scanReads
          ++ unmatchedPaths h s.hashRecords n files }, none⟩ := by
  induction files generalizing tr with
  | nil => simp [processFiles, unmatchedPaths]
  | cons f rest ih =>
    rw [processFiles_cons,
      processFile_settled h splitMd saveOk n f s tr (hall f (by simp))]
    simp only [if_pos rfl]
    rw [ih _ (fun g hg => hall g (List.mem_cons_of_mem _ hg))]
    simp [unmatchedPaths]

/-- Scanning settled knowledge bases is a no-op. -/
theorem processKbs_settled (h : String → String)
    (splitMd : String → List String) (saveOk : Nat → Bool)
    (names : List String) (s : Sys) (tr : Trace)
    (hall : ∀ nm ∈ names, startsWithDot nm = false →
      ∀ f ∈ kbFiles s.kbs nm, Settled h splitMd s.hashRecords nm f) :
    processKbs h splitMd saveOk names s tr
      = ⟨s, { tr with scanReads := tr.scanReads
          ++ unmatchedOfKbs h s.hashRecords s.kbs names }, none⟩ := by
  induction names generalizing tr with
  | nil => simp [processKbs, unmatchedOfKbs]
  | cons nm rest ih =>
    by_cases hdot : startsWithDot nm
    · rw [processKbs_cons_dot h splitMd saveOk nm rest s tr hdot,
        ih _ (fun m hm => hall m (List.mem_cons_of_mem _ hm))]
      simp [unmatchedOfKbs, hdot]
    · rw [processKbs_cons h splitMd saveOk nm rest s tr
        (Bool.not_eq_true _ ▸ hdot : startsWithDot nm = false)]
      rw [processFiles_settled h splitMd saveOk nm (kbFiles s.kbs nm) s tr
        (hall nm (by simp) (Bool.not_eq_true _ ▸ hdot))]
      simp only [if_pos rfl]
      rw [ih _ (fun m hm => hall m (List.mem_cons_of_mem _ hm))]
      simp [unmatchedOfKbs, hdot]

/-- After an error-free scan of one knowledge base's files, every
scanned file is settled (given pairwise-distinct record paths),
records at untouched paths are preserved, the in-memory store is never
nulled, and the tree and model file are untouched. -/
theorem processFiles_err_none (h : String → String)
    (splitMd : String → List String) (saveOk : Nat → Bool) (n : String)
    (files : List FoundFile) (s : Sys) (tr : Trace)
    (he : (processFiles h splitMd saveOk [n] files s tr).err = none) :
    (∀ p, (∀ f ∈ files, p ≠ idxPathOf [n] f) →
      lookupRec
          (processFiles h splitMd saveOk [n] files s tr).sys.hashRecords p
        = lookupRec s.hashRecords p)
    ∧ ((files.map (fun f => idxPathOf [n] f)).Nodup →
      ∀ f ∈ files, Settled h splitMd
        (processFiles h splitMd saveOk [n] files s tr).sys.hashRecords n f)
    ∧ ((processFiles h splitMd saveOk [n] files s tr).sys.faissIndex
        = none → s.faissIndex = none)
    ∧ (processFiles h splitMd saveOk [n] files s tr).sys.kbs = s.kbs
    ∧ (processFiles h splitMd saveOk [n] files s tr).sys.modelNameFile
      = s.modelNameFile := by
  induction files generalizing s tr with
  | nil =>
    refine ⟨fun p _ => ?_, by simp, fun x => by simpa [processFiles] using x,
      by simp [processFiles], by simp [processFiles]⟩
    simp [processFiles]
  | cons f rest ih =>
    rw [processFiles_cons] at he ⊢
    by_cases hse : (processFile h splitMd saveOk [n] f s tr).err = none
    · rw [if_pos hse] at he ⊢
      obtain ⟨hset, hpres, hfai, hkbs, hmod⟩ :=
        processFile_err_none h splitMd saveOk n f s tr hse
      obtain ⟨ihpres, ihset, ihfai, ihkbs, ihmod⟩ := ih _ _ he
      refine ⟨?_, ?_, fun hz => hfai (ihfai hz), by rw [ihkbs, hkbs],
        by rw [ihmod, hmod]⟩
      · intro p hp
        rw [ihpres p (fun g hg => hp g (List.mem_cons_of_mem _ hg)),
          hpres p (hp f (List.mem_cons_self _ _))]
      · intro hnd g hg
        rw [List.map_cons, List.nodup_cons] at hnd
        obtain ⟨hnotin, hndrest⟩ := hnd
        rcases List.mem_cons.mp hg with rfl | hg'
        · obtain ⟨hhf, hcase⟩ := hset
          refine ⟨hhf, ?_⟩
          rcases hcase with hmatch | hcf | hemp
          · refine Or.inl ?_
            rw [ihpres (idxPathOf [n] g) ?_]
            · exact hmatch
            · intro f' hf' hc
              exact hnotin (hc ▸ List.mem_map_of_mem _ hf')
          · exact Or.inr (Or.inl hcf)
          · exact Or.inr (Or.inr hemp)
        · exact ihset hndrest g hg'
    · rw [if_neg hse] at he
      exact absurd he hse

/-- After an error-free scan of a list of knowledge bases, every
scanned file of every non-hidden knowledge base is settled (given
globally pairwise-distinct record paths); untouched records, the
store-null direction, the tree and the model file are preserved. -/
theorem processKbs_err_none (h : String → String)
    (splitMd : String → List String) (saveOk : Nat → Bool)
    (names : List String) (s : Sys) (tr : Trace)
    (he : (processKbs h splitMd saveOk names s tr).err = none) :
    (∀ p, p ∉ idxPathsOfKbs s.kbs names →
      lookupRec
          (processKbs h splitMd saveOk names s tr).sys.hashRecords p
        = lookupRec s.hashRecords p)
    ∧ ((idxPathsOfKbs s.kbs names).Nodup →
      ∀ nm ∈ names, startsWithDot nm = false →
      ∀ f ∈ kbFiles s.kbs nm, Settled h splitMd
        (processKbs h splitMd saveOk names s tr).sys.hashRecords nm f)
    ∧ ((processKbs h splitMd saveOk names s tr).sys.faissIndex = none →
      s.faissIndex = none)
    ∧ (processKbs h splitMd saveOk names s tr).sys.kbs = s.kbs
    ∧ (processKbs h splitMd saveOk names s tr).sys.modelNameFile
      = s.modelNameFile := by
  induction names generalizing s tr with
  | nil =>
    refine ⟨fun p _ => ?_, by simp, fun x => by simpa [processKbs] using x,
      by simp [processKbs], by simp [processKbs]⟩
    simp [processKbs]
  | cons nm rest ih =>
    by_cases hdot : startsWithDot nm
    · rw [processKbs_cons_dot h splitMd saveOk nm rest s tr hdot] at he ⊢
      obtain ⟨ihpres, ihset, ihfai, ihkbs, ihmod⟩ := ih _ _ he
      refine ⟨?_, ?_, ihfai, ihkbs, ihmod⟩
      · intro p hp
        refine ihpres p ?_
        simpa [idxPathsOfKbs, hdot] using hp
      · intro hnd m hm hmdot
        rcases List.mem_cons.mp hm with rfl | hm'
        · exact absurd hdot (by simp [hmdot])
        · exact ihset (by simpa [idxPathsOfKbs, hdot] using hnd) m hm' hmdot
    · have hdot' : startsWithDot nm = false := Bool.not_eq_true _ ▸ hdot
      rw [processKbs_cons h splitMd saveOk nm rest s tr hdot'] at he ⊢
      by_cases hse : (processFiles h splitMd saveOk [nm]
          (kbFiles s.kbs nm) s tr).err = none
      · rw [if_pos hse] at he ⊢
        obtain ⟨fpres, fset, ffai, fkbs, fmod⟩ :=
          processFiles_err_none h splitMd saveOk nm
            (kbFiles s.kbs nm) s tr hse
        obtain ⟨ihpres, ihset, ihfai, ihkbs, ihmod⟩ := ih _ _ he
        have hidx : idxPathsOfKbs
            (processFiles h splitMd saveOk [nm]
              (kbFiles s.kbs nm) s tr).sys.kbs rest
            = idxPathsOfKbs s.kbs rest := by rw [fkbs]
        have hkbf : ∀ m, kbFiles
            (processFiles h splitMd saveOk [nm]
              (kbFiles s.kbs nm) s tr).sys.kbs m
            = kbFiles s.kbs m := fun m => by rw [fkbs]
        refine ⟨?_, ?_, fun hz => ffai (ihfai hz), by rw [ihkbs, fkbs],
          by rw [ihmod, fmod]⟩
        · intro p hp
          simp only [idxPathsOfKbs, hdot', if_false, Bool.false_eq_true,
            List.mem_append] at hp
          push_neg at hp
          rw [ihpres p (hidx ▸ hp.2), fpres p ?_]
          intro g hg hc
          exact hp.1 (hc ▸ List.mem_map_of_mem _ hg)
        · intro hnd m hm hmdot
          simp only [idxPathsOfKbs, hdot', if_false,
            Bool.false_eq_true] at hnd
          rw [List.nodup_append] at hnd
          obtain ⟨hndL, hndR, hdisj⟩ := hnd
          rcases List.mem_cons.mp hm with rfl | hm'
          · intro f hf
            obtain ⟨hhf, hcase⟩ := fset hndL f hf
            refine ⟨hhf, ?_⟩
            rcases hcase with hmatch | hcf | hemp
            · refine Or.inl ?_
              rw [ihpres (idxPathOf [m] f) ?_]
              · exact hmatch
              · rw [hidx]
                exact fun hin =>
                  hdisj (List.mem_map_of_mem _ hf) hin
            · exact Or.inr (Or.inl hcf)
            · exact Or.inr (Or.inr hemp)
          · intro f hf
            have := ihset (hidx ▸ hndR) m hm' hmdot f ((hkbf m) ▸ hf)
            exact this
      · rw [if_neg hse] at he
        exact absurd he hse

/-- Elimination for `unmatchedPaths`: every read path comes from a
scanned file whose record does not match. -/
theorem mem_unmatchedPaths (h : String → String)
    (recs : List (List String × String)) (n : String)
    (files : List FoundFile) (p : List String)
    (hp : p ∈ unmatchedPaths h recs n files) :
    ∃ g ∈ files, p = g.path
      ∧ lookupRec recs (idxPathOf [n] g) ≠ some (h g.content) := by
  induction files with
  | nil => simp [unmatchedPaths] at hp
  | cons f rest ih =>
    rw [unmatchedPaths] at hp
    rcases List.mem_append.mp hp with hl | hr
    · by_cases hm : lookupRec recs (idxPathOf [n] f) = some (h f.content)
      · simp [hm] at hl
      · rw [if_neg hm] at hl
        simp only [List.mem_singleton] at hl
        exact ⟨f, List.mem_cons_self _ _, hl, hm⟩
    · obtain ⟨g, hg, hgp, hgm⟩ := ih hr
      exact ⟨g, List.mem_cons_of_mem _ hg, hgp, hgm⟩

/-- Elimination for `unmatchedOfKbs`. -/
theorem mem_unmatchedOfKbs (h : String → String)
    (recs : List (List String × String))
    (kbs : List (String × List Entry)) (names : List String)
    (p : List String) (hp : p ∈ unmatchedOfKbs h recs kbs names) :
    ∃ nm ∈ names, startsWithDot nm = false ∧ ∃ g ∈ kbFiles kbs nm,
      p = g.path
      ∧ lookupRec recs (idxPathOf [nm] g) ≠ some (h g.content) := by
  induction names with
  | nil => simp [unmatchedOfKbs] at hp
  | cons nm rest ih =>
    rw [unmatchedOfKbs] at hp
    rcases List.mem_append.mp hp with hl | hr
    · by_cases hdot : startsWithDot nm
      · simp [hdot] at hl
      · rw [if_neg hdot] at hl
        obtain ⟨g, hg, hgp, hgm⟩ := mem_unmatchedPaths h recs nm _ p hl
        exact ⟨nm, List.mem_cons_self _ _, Bool.not_eq_true _ ▸ hdot,
          g, hg, hgp, hgm⟩
    · obtain ⟨m, hm, hmdot, g, hg, hgp, hgm⟩ := ih hr
      exact ⟨m, List.mem_cons_of_mem _ hm, hmdot, g, hg, hgp, hgm⟩

/-- Introduction for `idxPathsOfKbs`. -/
theorem mem_idxPathsOfKbs (kbs : List (String × List Entry))
    (names : List String) (nm : String) (hnm : nm ∈ names)
    (hdot : startsWithDot nm = false) (f : FoundFile)
    (hf : f ∈ kbFiles kbs nm) :
    idxPathOf [nm] f ∈ idxPathsOfKbs kbs names := by
  induction names with
  | nil => simp at hnm
  | cons m rest ih =>
    rw [idxPathsOfKbs]
    rcases List.mem_cons.mp hnm with rfl | hnm'
    · rw [if_neg (by simp [hdot])]
      exact List.mem_append_left _ (List.mem_map_of_mem _ hf)
    · exact List.mem_append_right _ (ih hnm')

/-- Every scanned file's path starts with its knowledge base's name. -/
theorem kbFiles_path_shape (kbs : List (String × List Entry))
    (n : String) (f : FoundFile) (hf : f ∈ kbFiles kbs n) :
    ∃ q, f.path = n :: q := by
  unfold kbFiles at hf
  cases hkb : lookupKb kbs n with
  | none => rw [hkb] at hf; simp at hf
  | some tree =>
    rw [hkb] at hf
    obtain ⟨q, hq, _⟩ := collectFiles_path_shape [n] tree f hf
    exact ⟨q, by simpa using hq⟩

/-- Two scanned files with the same path have the same hash-record
path (the record path is the path with `.index` interposed after the
knowledge-base name, which is the path's head). -/
theorem idxPathOf_congr (kbs : List (String × List Entry))
    (n m : String) (f g : FoundFile) (hf : f ∈ kbFiles kbs n)
    (hg : g ∈ kbFiles kbs m) (hfg : f.path = g.path) :
    idxPathOf [n] f = idxPathOf [m] g := by
  obtain ⟨q, hq⟩ := kbFiles_path_shape kbs n f hf
  obtain ⟨q', hq'⟩ := kbFiles_path_shape kbs m g hg
  have : n :: q = m :: q' := by rw [← hq, ← hq', hfg]
  obtain ⟨rfl, rfl⟩ : n = m ∧ q = q' := by
    exact ⟨List.head_eq_of_cons_eq this, List.tail_eq_of_cons_eq this⟩
  simp [idxPathOf, relativeTo, hq, hq']

/-- With globally pairwise-distinct record paths, the record path
determines the scanned file. -/
theorem idxPathsOfKbs_inj (kbs : List (String × List Entry))
    (names : List String) (hnd : (idxPathsOfKbs kbs names).Nodup)
    (nm m : String) (hnm : nm ∈ names) (hm : m ∈ names)
    (hdnm : startsWithDot nm = false) (hdm : startsWithDot m = false)
    (f g : FoundFile) (hf : f ∈ kbFiles kbs nm) (hg : g ∈ kbFiles kbs m)
    (heq : idxPathOf [nm] f = idxPathOf [m] g) : f = g := by
  induction names with
  | nil => simp at hnm
  | cons k rest ih =>
    rw [idxPathsOfKbs] at hnd
    rw [List.nodup_append] at hnd
    obtain ⟨hndL, hndR, hdisj⟩ := hnd
    rcases List.mem_cons.mp hnm with rfl | hnm' <;>
      rcases List.mem_cons.mp hm with heq2 | hm'
    · subst heq2
      rw [if_neg (by simp [hdnm])] at hndL
      exact List.inj_on_of_nodup_map hndL hf hg heq
    · exfalso
      rw [if_neg (by simp [hdnm])] at hdisj
      exact hdisj (List.mem_map_of_mem _ hf)
        (heq ▸ mem_idxPathsOfKbs kbs rest m hm' hdm g hg)
    · exfalso
      subst heq2
      rw [if_neg (by simp [hdm])] at hdisj
      exact hdisj (List.mem_map_of_mem _ hg)
        (heq ▸ mem_idxPathsOfKbs kbs rest nm hnm' hdnm f hf)
    · exact ih hndR hnm' hm'

/-- A file whose record matches is not among the scan's content
reads. -/
theorem match_not_in_unmatchedOfKbs (h : String → String)
    (recs : List (List String × String))
    (kbs : List (String × List Entry)) (names : List String)
    (hnd : (idxPathsOfKbs kbs names).Nodup)
    (nm : String) (hnm : nm ∈ names) (hdot : startsWithDot nm = false)
    (f : FoundFile) (hf : f ∈ kbFiles kbs nm)
    (hmatch : lookupRec recs (idxPathOf [nm] f) = some (h f.content)) :
    f.path ∉ unmatchedOfKbs h recs kbs names := by
  intro hin
  obtain ⟨m, hm, hmdot, g, hg, hgp, hgm⟩ :=
    mem_unmatchedOfKbs h recs kbs names _ hin
  have hidx : idxPathOf [nm] f = idxPathOf [m] g :=
    idxPathOf_congr kbs nm m f g hf hg hgp
  have hfg : f = g :=
    idxPathsOfKbs_inj kbs names hnd nm m hnm hm hdot hmdot f g hf hg hidx
  exact hgm (hidx ▸ hfg ▸ hmatch)

/-- An `updateIndex` call on a state whose scanned files are all
settled — and in which a null in-memory store implies the fallback
would gather no documents — is a no-op: no state change, no error, no
embedding call, no save; its scan reads are exactly the unmatched
files. -/
theorem updateIndex_settled (h : String → String)
    (splitMd : String → List String) (saveOk : Nat → Bool)
    (specific : Option String) (s : Sys)
    (hall : ∀ nm ∈ scanNames specific s, startsWithDot nm = false →
      ∀ f ∈ kbFiles s.kbs nm, Settled h splitMd s.hashRecords nm f)
    (hfb : s.faissIndex = none →
      anyFileProcessed s.kbs (scanNames specific s) = false
      ∨ (gatherAll splitMd s.kbs (scanNames specific s)).1 = []) :
    (updateIndex h splitMd saveOk specific s).sys = s
    ∧ (updateIndex h splitMd saveOk specific s).err = none
    ∧ (updateIndex h splitMd saveOk specific s).tr.embeds = 0
    ∧ (updateIndex h splitMd saveOk specific s).tr.saves = 0
    ∧ (updateIndex h splitMd saveOk specific s).tr.scanReads
      = unmatchedOfKbs h s.hashRecords s.kbs (scanNames specific s)
    ∧ (¬ s.faissIndex = none →
      (updateIndex h splitMd saveOk specific s).tr.rebuildReads = []) := by
  have hmain := processKbs_settled h splitMd saveOk
    (scanNames specific s) s ⟨0, 0, [], []⟩ hall
  by_cases hfi : s.faissIndex = none
    ∧ anyFileProcessed s.kbs (scanNames specific s) = true
  · have hdocs : (gatherAll splitMd s.kbs (scanNames specific s)).1
        = [] := by
      rcases hfb hfi.1 with hany | hd
      · rw [hfi.2] at hany
        exact absurd hany (by simp)
      · exact hd
    rcases hg : gatherAll splitMd s.kbs (scanNames specific s)
      with ⟨docs, reads⟩
    rw [hg] at hdocs
    simp only at hdocs
    subst hdocs
    have hr : updateIndex h splitMd saveOk specific s
        = ⟨s, { embeds := 0
                saves := 0
                scanReads := [] ++ unmatchedOfKbs h s.hashRecords s.kbs
                  (scanNames specific s)
                rebuildReads := [] ++ reads }, none⟩ := by
      simp only [updateIndex, hmain, hg]
      rw [if_pos hfi]
      simp
    rw [hr]
    simp [hfi.1]
  · have hr : updateIndex h splitMd saveOk specific s
        = ⟨s, { embeds := 0
                saves := 0
                scanReads := [] ++ unmatchedOfKbs h s.hashRecords s.kbs
                  (scanNames specific s)
                rebuildReads := [] }, none⟩ := by
      simp only [updateIndex, hmain]
      rw [if_neg hfi]
    rw [hr]
    simp

/-- After an error-free `updateIndex`, every scanned file is settled
with respect to the resulting hash records (given pairwise-distinct
record paths); moreover a still-null in-memory store means the
fallback had nothing to gather (or no file was seen at all), and the
directory tree is unchanged. -/
theorem updateIndex_err_none_state (h : String → String)
    (splitMd : String → List String) (saveOk : Nat → Bool)
    (specific : Option String) (s : Sys)
    (h1 : (updateIndex h splitMd saveOk specific s).err = none) :
    ((idxPathsOfKbs s.kbs (scanNames specific s)).Nodup →
      ∀ nm ∈ scanNames specific s, startsWithDot nm = false →
      ∀ f ∈ kbFiles s.kbs nm, Settled h splitMd
        (updateIndex h splitMd saveOk specific s).sys.hashRecords nm f)
    ∧ ((updateIndex h splitMd saveOk specific s).sys.faissIndex = none →
      anyFileProcessed s.kbs (scanNames specific s) = false
      ∨ (gatherAll splitMd s.kbs (scanNames specific s)).1 = [])
    ∧ (updateIndex h splitMd saveOk specific s).sys.kbs = s.kbs
    ∧ (updateIndex h splitMd saveOk specific s).sys.hashRecords
      = (processKbs h splitMd saveOk (scanNames specific s) s
          ⟨0, 0, [], []⟩).sys.hashRecords := by
  rcases hre : (processKbs h splitMd saveOk (scanNames specific s) s
      ⟨0, 0, [], []⟩).err with _ | e
  case some =>
    have : (updateIndex h splitMd saveOk specific s).err = some e := by
      simp only [updateIndex]
      generalize hR : processKbs h splitMd saveOk
        (scanNames specific s) s ⟨0, 0, [], []⟩ = R at hre ⊢
      obtain ⟨s1, tr1, e1⟩ := R
      simp only at hre
      subst hre
      rfl
    rw [this] at h1
    exact absurd h1 (by simp)
  case none =>
    obtain ⟨gpres, gset, gfai, gkbs, gmod⟩ :=
      processKbs_err_none h splitMd saveOk (scanNames specific s) s
        ⟨0, 0, [], []⟩ hre
    by_cases hfi : (processKbs h splitMd saveOk (scanNames specific s) s
        ⟨0, 0, [], []⟩).sys.faissIndex = none
      ∧ anyFileProcessed s.kbs (scanNames specific s) = true
    · rcases hg : gatherAll splitMd s.kbs (scanNames specific s)
        with ⟨docs, reads⟩
      by_cases hdocs : docs = []
      · subst hdocs
        have hr : updateIndex h splitMd saveOk specific s
            = ⟨(processKbs h splitMd saveOk (scanNames specific s) s
                ⟨0, 0, [], []⟩).sys,
               { (processKbs h splitMd saveOk (scanNames specific s) s
                  ⟨0, 0, [], []⟩).tr with
                 rebuildReads := (processKbs h splitMd saveOk
                  (scanNames specific s) s
                  ⟨0, 0, [], []⟩).tr.rebuildReads ++ reads },
               none⟩ := by
          simp only [updateIndex]
          generalize hR : processKbs h splitMd saveOk
            (scanNames specific s) s ⟨0, 0, [], []⟩ = R at hre hfi ⊢
          obtain ⟨s1, tr1, e1⟩ := R
          simp only at hre
          subst hre
          simp only [hg]
          rw [if_pos hfi]
          simp
        rw [hr]
        exact ⟨fun hnd => gset hnd, fun _ => Or.inr (by simp [hg]),
          gkbs, rfl⟩
      · by_cases hsave : saveOk (processKbs h splitMd saveOk
            (scanNames specific s) s ⟨0, 0, [], []⟩).tr.saves
        · have hr : (updateIndex h splitMd saveOk specific s).sys
              = { (processKbs h splitMd saveOk (scanNames specific s) s
                  ⟨0, 0, [], []⟩).sys with
                  faissIndex := some docs
                  diskIndex := some docs } := by
            simp only [updateIndex]
            generalize hR : processKbs h splitMd saveOk
              (scanNames specific s) s ⟨0, 0, [], []⟩ = R
              at hre hfi hsave ⊢
            obtain ⟨s1, tr1, e1⟩ := R
            simp only at hre
            subst hre
            simp only [hg]
            rw [if_pos hfi]
            simp [hdocs, hsave]
          rw [hr]
          refine ⟨fun hnd => gset hnd, fun hc => ?_, gkbs, rfl⟩
          · exact absurd hc (by simp)
        · have hr : (updateIndex h splitMd saveOk specific s).err
              = some "save failed" := by
            simp only [updateIndex]
            generalize hR : processKbs h splitMd saveOk
              (scanNames specific s) s ⟨0, 0, [], []⟩ = R
              at hre hfi hsave ⊢
            obtain ⟨s1, tr1, e1⟩ := R
            simp only at hre
            subst hre
            simp only [hg]
            rw [if_pos hfi]
            simp [hdocs, hsave]
          rw [hr] at h1
          exact absurd h1 (by simp)
    · have hr : updateIndex h splitMd saveOk specific s
          = processKbs h splitMd saveOk (scanNames specific s) s
            ⟨0, 0, [], []⟩ := by
        simp only [updateIndex]
        generalize hR : processKbs h splitMd saveOk
          (scanNames specific s) s ⟨0, 0, [], []⟩ = R at hre hfi ⊢
        obtain ⟨s1, tr1, e1⟩ := R
        simp only at hre
        subst hre
        rw [if_neg hfi]
      rw [hr]
      refine ⟨fun hnd => gset hnd, fun hc => Or.inl ?_, gkbs, rfl⟩
      · rcases Bool.eq_false_or_eq_true
          (anyFileProcessed s.kbs (scanNames specific s)) with hb | hb
        · exact absurd ⟨hc, hb⟩ hfi
        · exact hb

/-- **C5.**  Calling `updateIndex` twice in succession with no file
changes between the calls performs zero embedding calls and zero store
saves on the second call, leaves the state unchanged, and every file
whose current content hash equals its stored hash record is skipped by
the second call's change-detection scan without reading its content.
(Hypotheses: the first call completed without error, and the hash
record paths of the scanned files are pairwise distinct — true of any
real directory tree, where sibling names are unique.) -/
theorem updateIndex_idempotent (h : String → String)
    (splitMd : String → List String) (saveOk saveOk2 : Nat → Bool)
    (specific : Option String) (s : Sys)
    (hnd : (idxPathsOfKbs s.kbs (scanNames specific s)).Nodup)
    (h1 : (updateIndex h splitMd saveOk specific s).err = none) :
    (updateIndex h splitMd saveOk2 specific
        (updateIndex h splitMd saveOk specific s).sys).sys
      = (updateIndex h splitMd saveOk specific s).sys
    ∧ (updateIndex h splitMd saveOk2 specific
        (updateIndex h splitMd saveOk specific s).sys).err = none
    ∧ (updateIndex h splitMd saveOk2 specific
        (updateIndex h splitMd saveOk specific s).sys).tr.embeds = 0
    ∧ (updateIndex h splitMd saveOk2 specific
        (updateIndex h splitMd saveOk specific s).sys).tr.saves = 0
    ∧ (¬ (updateIndex h splitMd saveOk specific s).sys.faissIndex = none →
        (updateIndex h splitMd saveOk2 specific
          (updateIndex h splitMd saveOk specific s).sys).tr.rebuildReads
          = [])
    ∧ ∀ nm ∈ scanNames specific s, startsWithDot nm = false →
        ∀ f ∈ kbFiles s.kbs nm,
        lookupRec (updateIndex h splitMd saveOk specific s).sys.hashRecords
            (idxPathOf [nm] f) = some (h f.content) →
        f.path ∉ (updateIndex h splitMd saveOk2 specific
            (updateIndex h splitMd saveOk specific s).sys).tr.scanReads := by
  obtain ⟨hset, hfb, hkbs, hrecs⟩ :=
    updateIndex_err_none_state h splitMd saveOk specific s h1
  have hscan : scanNames specific
      (updateIndex h splitMd saveOk specific s).sys
      = scanNames specific s := by
    cases specific with
    | some n => rfl
    | none => simp [scanNames, hkbs]
  have hall : ∀ nm ∈ scanNames specific
      (updateIndex h splitMd saveOk specific s).sys,
      startsWithDot nm = false →
      ∀ f ∈ kbFiles (updateIndex h splitMd saveOk specific s).sys.kbs nm,
      Settled h splitMd
        (updateIndex h splitMd saveOk specific s).sys.hashRecords nm f := by
    intro nm hnm hdot f hf
    rw [hscan] at hnm
    rw [hkbs] at hf
    exact hset hnd nm hnm hdot f hf
  have hfb1 : (updateIndex h splitMd saveOk specific s).sys.faissIndex
      = none →
      anyFileProcessed (updateIndex h splitMd saveOk specific s).sys.kbs
        (scanNames specific (updateIndex h splitMd saveOk specific s).sys)
        = false
      ∨ (gatherAll splitMd
          (updateIndex h splitMd saveOk specific s).sys.kbs
          (scanNames specific
            (updateIndex h splitMd saveOk specific s).sys)).1 = [] := by
    rw [hscan, hkbs]
    exact hfb
  obtain ⟨r2sys, r2err, r2emb, r2sav, r2reads, r2rebuild⟩ :=
    updateIndex_settled h splitMd saveOk2 specific
      (updateIndex h splitMd saveOk specific s).sys hall hfb1
  refine ⟨r2sys, r2err, r2emb, r2sav, r2rebuild, ?_⟩
  intro nm hnm hdot f hf hmatch
  rw [r2reads, hscan, hkbs]
  exact match_not_in_unmatchedOfKbs h
    (updateIndex h splitMd saveOk specific s).sys.hashRecords
    s.kbs (scanNames specific s) hnd nm hnm hdot f hf hmatch

/-- A root with one knowledge base holding one markdown file. -/
def sysOneMd : Sys :=
  ⟨[("kb1", [Entry.file "a.md" "x" false false])], [], none, none, none⟩

/-- Witness for C5 at a concrete input: after a first indexing run on
a one-file knowledge base, the second run performs no embedding
call. -/
theorem updateIndex_idempotent_witness :
    (updateIndex (fun c => c) (fun c => [c]) (fun _ => true)
        (some "kb1")
        (updateIndex (fun c => c) (fun c => [c]) (fun _ => true)
          (some "kb1") sysOneMd).sys).tr.embeds = 0 :=
  (updateIndex_idempotent (fun c => c) (fun c => [c]) (fun _ => true)
    (fun _ => true) (some "kb1") sysOneMd
    (by simp [idxPathsOfKbs, scanNames, kbFiles, lookupKb, collectFiles,
      startsWithDot, sysOneMd])
    (by simp [updateIndex, scanNames, processKbs, processFiles,
      processFile, kbFiles, lookupKb, collectFiles, startsWithDot,
      chunkFile, isMdFile, lowerStr, extname, extnameList, idxPathOf,
      relativeTo, lookupRec, anyFileProcessed, sysOneMd])).2.2.1
